import Mathlib

/-!
# Concurrent file downloader: retry-and-verify worker and worker pool

A shallow embedding of `v4-checksum-verification/main.go` (and of the worker-pool
wiring it shares with `v3-worker-pool/main.go`).

* The network, the file system and the clock are not part of the program; what they do at
  each attempt is an explicit input (`AttemptEvents`), and the program's effects on them are
  recorded in `WorkerState` (the file at the job's destination, the calls made so far).
* `crypto/sha256` and `fmt.Sprintf("%x", …)` are embedded as `sha256Sum` and `hexLower`.
* The goroutines of `main` are embedded as a step function on `Pool`, one step per channel,
  `WaitGroup` or job-processing operation, driven by an arbitrary schedule.
-/

namespace Downloader

set_option maxRecDepth 100000

/-! ## `crypto/sha256` and `%x` formatting -/

/-- Round constants of SHA-256 (FIPS 180-4, section 4.2.2). -/
def sha256K : List Nat :=
  [0x428a2f98, 0x71374491, 0xb5c0fbcf, 0xe9b5dba5, 0x3956c25b, 0x59f111f1, 0x923f82a4, 0xab1c5ed5,
   0xd807aa98, 0x12835b01, 0x243185be, 0x550c7dc3, 0x72be5d74, 0x80deb1fe, 0x9bdc06a7, 0xc19bf174,
   0xe49b69c1, 0xefbe4786, 0x0fc19dc6, 0x240ca1cc, 0x2de92c6f, 0x4a7484aa, 0x5cb0a9dc, 0x76f988da,
   0x983e5152, 0xa831c66d, 0xb00327c8, 0xbf597fc7, 0xc6e00bf3, 0xd5a79147, 0x06ca6351, 0x14292967,
   0x27b70a85, 0x2e1b2138, 0x4d2c6dfc, 0x53380d13, 0x650a7354, 0x766a0abb, 0x81c2c92e, 0x92722c85,
   0xa2bfe8a1, 0xa81a664b, 0xc24b8b70, 0xc76c51a3, 0xd192e819, 0xd6990624, 0xf40e3585, 0x106aa070,
   0x19a4c116, 0x1e376c08, 0x2748774c, 0x34b0bcb5, 0x391c0cb3, 0x4ed8aa4a, 0x5b9cca4f, 0x682e6ff3,
   0x748f82ee, 0x78a5636f, 0x84c87814, 0x8cc70208, 0x90befffa, 0xa4506ceb, 0xbef9a3f7, 0xc67178f2]

/-- Truncation to a 32-bit word. -/
def w32 (x : Nat) : Nat := x % 4294967296

/-- Right rotation of a 32-bit word. -/
def rotr (x n : Nat) : Nat := w32 ((x >>> n) ||| (x <<< (32 - n)))

/-- Message padding: the byte 0x80, zero bytes up to 56 modulo 64, then the bit length of the
message as eight big-endian bytes. -/
def sha256Pad (msg : List Nat) : List Nat :=
  let l := msg.length
  let z := (119 - l % 64) % 64
  let bits := 8 * l
  msg.map (· % 256) ++ [128] ++ List.replicate z 0 ++
    (List.range 8).map (fun i => (bits >>> (8 * (7 - i))) % 256)

/-- Big-endian 32-bit words of a byte string. -/
def beWords : List Nat → List Nat
  | a :: b :: c :: d :: rest => (a * 16777216 + b * 65536 + c * 256 + d) :: beWords rest
  | _ => []

/-- Extends the message schedule, kept newest word first, by `n` words. -/
def sha256Extend : Nat → List Nat → List Nat
  | 0, ws => ws
  | n + 1, ws =>
    let w2 := ws.getD 1 0
    let w7 := ws.getD 6 0
    let w15 := ws.getD 14 0
    let w16 := ws.getD 15 0
    let s0 := rotr w15 7 ^^^ rotr w15 18 ^^^ (w15 >>> 3)
    let s1 := rotr w2 17 ^^^ rotr w2 19 ^^^ (w2 >>> 10)
    sha256Extend n (w32 (w16 + s0 + w7 + s1) :: ws)

/-- The eight working registers of SHA-256. -/
structure Sha256Regs where
  a : Nat
  b : Nat
  c : Nat
  d : Nat
  e : Nat
  f : Nat
  g : Nat
  h : Nat
deriving DecidableEq, Repr

/-- One round of the compression function, on a (constant, schedule word) pair. -/
def sha256Round (r : Sha256Regs) (kw : Nat × Nat) : Sha256Regs :=
  let s1 := rotr r.e 6 ^^^ rotr r.e 11 ^^^ rotr r.e 25
  let ch := (r.e &&& r.f) ^^^ ((4294967295 - r.e) &&& r.g)
  let t1 := w32 (r.h + s1 + ch + kw.1 + kw.2)
  let s0 := rotr r.a 2 ^^^ rotr r.a 13 ^^^ rotr r.a 22
  let maj := (r.a &&& r.b) ^^^ (r.a &&& r.c) ^^^ (r.b &&& r.c)
  let t2 := w32 (s0 + maj)
  { a := w32 (t1 + t2), b := r.a, c := r.b, d := r.c,
    e := w32 (r.d + t1), f := r.e, g := r.f, h := r.g }

/-- Compression of one 64-byte block into the chaining value. -/
def sha256Block (r : Sha256Regs) (block : List Nat) : Sha256Regs :=
  let ws := (sha256Extend 48 (beWords block).reverse).reverse
  let o := (sha256K.zip ws).foldl sha256Round r
  { a := w32 (r.a + o.a), b := w32 (r.b + o.b), c := w32 (r.c + o.c), d := w32 (r.d + o.d),
    e := w32 (r.e + o.e), f := w32 (r.f + o.f), g := w32 (r.g + o.g), h := w32 (r.h + o.h) }

/-- Compression of the first `n` blocks of a padded message. -/
def sha256Blocks : Nat → Sha256Regs → List Nat → Sha256Regs
  | 0, r, _ => r
  | n + 1, r, bytes => sha256Blocks n (sha256Block r (bytes.take 64)) (bytes.drop 64)

/-- Initial chaining value of SHA-256. -/
def sha256Init : Sha256Regs :=
  { a := 0x6a09e667, b := 0xbb67ae85, c := 0x3c6ef372, d := 0xa54ff53a,
    e := 0x510e527f, f := 0x9b05688c, g := 0x1f83d9ab, h := 0x5be0cd19 }

/-- Big-endian bytes of a 32-bit word. -/
def wordBytes (x : Nat) : List Nat :=
  [x / 16777216 % 256, x / 65536 % 256, x / 256 % 256, x % 256]

/-- What `hash := sha256.New(); io.Copy(hash, file); hash.Sum(nil)` returns for a file holding
`msg`: the 32 bytes of the SHA-256 digest. -/
def sha256Sum (msg : List Nat) : List Nat :=
  let p := sha256Pad msg
  let r := sha256Blocks (p.length / 64) sha256Init p
  wordBytes r.a ++ wordBytes r.b ++ wordBytes r.c ++ wordBytes r.d ++
    wordBytes r.e ++ wordBytes r.f ++ wordBytes r.g ++ wordBytes r.h

/-- Digit of the `%x` verb: lower-case hexadecimal. -/
def hexDigit (n : Nat) : Char :=
  "0123456789abcdef".toList.getD n '0'

/-- What `fmt.Sprintf("%x", bytes)` returns: two lower-case hexadecimal digits for each byte. -/
def hexLower (bytes : List Nat) : String :=
  String.mk (bytes.flatMap (fun b => [hexDigit (b % 256 / 16), hexDigit (b % 16)]))

/-! ## Jobs, the environment and the worker's state -/

/-- The Go struct `DownloadJob` of version 4. -/
structure DownloadJob where
  URL : String
  Filename : String
  ExpectedHash : String
  MaxRetries : Int
deriving DecidableEq, Repr

/-- The Go `error` values the worker can see, by the call that produced them. -/
inductive CallError where
  | request
  | create
  | copy
  | openFile
  | readFile
deriving DecidableEq, Repr

/-- What the network and the file system do during one call of `downloadFile`. -/
inductive FetchEvent where
  /-- The call of `http.Get` returns an error. -/
  | getErr
  /-- The call of `os.Create` returns an error. -/
  | createErr
  /-- The call of `io.Copy` returns an error after `written` reached the file. -/
  | copyErr (written : List Nat)
  /-- The call of `io.Copy` copies the whole response body. -/
  | ok (body : List Nat)
deriving DecidableEq, Repr

/-- What the file system does during one call of `verifyChecksum`. -/
inductive ReadEvent where
  /-- The call of `os.Open` returns an error. -/
  | openErr
  /-- The call of `io.Copy(hash, file)` returns an error. -/
  | readErr
  /-- The file is read to its end. -/
  | ok
deriving DecidableEq, Repr

/-- What the outside world does during one iteration of the retry loop. -/
structure AttemptEvents where
  fetch : FetchEvent
  read : ReadEvent
  /-- Whether `os.Remove`, if called, succeeds. -/
  removeOk : Bool
deriving DecidableEq, Repr

/-- The worker's view of one job: the content of the file at `job.Filename` (`none` when no
file exists), the calls made so far, and the local `success`. -/
structure WorkerState where
  file : Option (List Nat)
  /-- Calls of `downloadFile`. -/
  fetches : Nat
  /-- Calls of `verifyChecksum`. -/
  verifies : Nat
  /-- Calls of `os.Remove`. -/
  removes : Nat
  /-- Calls of `time.Sleep`, in seconds, oldest first. -/
  sleeps : List Nat
  success : Bool
deriving DecidableEq, Repr

/-- How an iteration of the retry loop ends: `next` runs the post statement `attempt++`
(a `continue`, or the end of the body), `stop` is the `break`. -/
inductive Control where
  | next
  | stop
deriving DecidableEq, Repr

/-- What the worker prints for a job once the retry loop is over. -/
inductive Outcome where
  /-- The message "Verified and saved". -/
  | completed
  /-- The message "Failed to download … after `attempts` attempts". -/
  | failed (attempts : Int)
deriving DecidableEq, Repr

/-! ## The functions of `v4-checksum-verification/main.go` -/

/-- The Go function `downloadFile`: the returned error and the file at `filename` afterwards.
`os.Create` truncates or creates the file, so from then on the file exists. -/
def downloadFile (ev : FetchEvent) (file : Option (List Nat)) :
    Option CallError × Option (List Nat) :=
  match ev with
  | .getErr => (some .request, file)
  | .createErr => (some .create, file)
  | .copyErr written => (some .copy, some written)
  | .ok body => (none, some body)

/-- The Go function `verifyChecksum`: the pair `(match, err)`. -/
def verifyChecksum (file : Option (List Nat)) (ev : ReadEvent) (expected : String) :
    Bool × Option CallError :=
  match file, ev with
  | none, _ => (false, some .openFile)
  | some _, .openErr => (false, some .openFile)
  | some _, .readErr => (false, some .readFile)
  | some content, .ok =>
    let actual := hexLower (sha256Sum content)
    (actual == expected, none)

/-- The call `os.Remove(job.Filename)`, whose result the worker ignores. -/
def osRemove (file : Option (List Nat)) (removeOk : Bool) : Option (List Nat) :=
  if removeOk then none else file

/-- Body of the retry loop of `worker` (one attempt). -/
def attemptBody (job : DownloadJob) (ev : AttemptEvents) (st : WorkerState) :
    WorkerState × Control :=
  let (err, file1) := downloadFile ev.fetch st.file
  let st1 := { st with file := file1, fetches := st.fetches + 1 }
  if err.isSome then
    ({ st1 with sleeps := st1.sleeps ++ [2] }, .next)
  else
    let (isMatch, err) := verifyChecksum st1.file ev.read job.ExpectedHash
    let st2 := { st1 with verifies := st1.verifies + 1 }
    if err.isSome then
      (st2, .next)
    else if isMatch then
      ({ st2 with success := true }, .stop)
    else
      ({ st2 with file := osRemove st2.file ev.removeOk, removes := st2.removes + 1,
                  sleeps := st2.sleeps ++ [2] }, .next)

/-- The loop `for attempt := 1; attempt <= job.MaxRetries; attempt++` of `worker`, from the
test of its condition at `attempt`. `env k` is what the world does at attempt `k`. The result
is `none` when `fuel` iterations were not enough to leave the loop. The counter stays between
1 and `MaxRetries + 1`, so the 64-bit `int` of Go does not wrap for `MaxRetries < 2^63 - 1`,
and is embedded as an integer. -/
def retryLoop (job : DownloadJob) (env : Int → AttemptEvents) :
    Nat → Int → WorkerState → Option WorkerState
  | 0, _, _ => none
  | fuel + 1, attempt, st =>
    if attempt ≤ job.MaxRetries then
      match attemptBody job (env attempt) st with
      | (st1, .stop) => some st1
      | (st1, .next) => retryLoop job env fuel (attempt + 1) st1
    else some st

/-- The worker's state when it takes a job from the channel. -/
def WorkerState.start (file : Option (List Nat)) : WorkerState :=
  { file := file, fetches := 0, verifies := 0, removes := 0, sleeps := [], success := false }

/-- Body of `for job := range jobs` in `worker`: what the worker does with one job, given the
file found at the destination. The loop runs at most `MaxRetries` iterations, which is the
fuel handed to `retryLoop` (plus the last test of the condition). -/
def worker (job : DownloadJob) (env : Int → AttemptEvents) (file : Option (List Nat)) :
    Option (WorkerState × Outcome) :=
  (retryLoop job env (job.MaxRetries.toNat + 1) 1 (WorkerState.start file)).map
    (fun st => (st, if st.success then .completed else .failed job.MaxRetries))


/-! ## Specification-side vocabulary and concrete runs -/

/-- The attempt has a successful fetch followed by a digest that matches the expected one. -/
def attemptVerifies (job : DownloadJob) (ev : AttemptEvents) : Bool :=
  match ev.fetch, ev.read with
  | .ok body, .ok => hexLower (sha256Sum body) == job.ExpectedHash
  | _, _ => false

/-- Comparison ignoring letter case, as the specification words the digest comparison. -/
def equalFold (a b : String) : Bool :=
  a.toList.map Char.toLower == b.toList.map Char.toLower

/-- SHA-256 digest of the empty file, as `%x` prints it. -/
def emptyDigest : String :=
  "e3b0c44298fc1c149afbf4c8996fb92427ae41e4649b934ca495991b7852b855"

/-- The same digest spelled in upper case. -/
def emptyDigestUpper : String :=
  "E3B0C44298FC1C149AFBF4C8996FB92427AE41E4649B934CA495991B7852B855"

/-- A job expecting the empty file, with three attempts. -/
def scenarioJob : DownloadJob :=
  { URL := "A", Filename := "dest", ExpectedHash := emptyDigest, MaxRetries := 3 }

/-- Two attempts deliver the one-byte content `[1]`, the third delivers the empty content. -/
def scenarioEnv : Int → AttemptEvents :=
  fun k => if k = 3 then ⟨.ok [], .ok, true⟩ else ⟨.ok [1], .ok, true⟩

/-- A job expecting the empty file, with two attempts. -/
def twoAttemptJob : DownloadJob :=
  { URL := "A", Filename := "dest", ExpectedHash := emptyDigest, MaxRetries := 2 }

/-- A job with an empty `ExpectedHash`, with two attempts. -/
def noDigestJob : DownloadJob :=
  { URL := "A", Filename := "dest", ExpectedHash := "", MaxRetries := 2 }

/-- Every request fails in `http.Get`. -/
def requestFailsEnv : Int → AttemptEvents :=
  fun _ => ⟨.getErr, .ok, true⟩

/-- Every response stream breaks after three bytes reached the file. -/
def streamBreaksEnv : Int → AttemptEvents :=
  fun _ => ⟨.copyErr [1, 2, 3], .ok, true⟩

/-- Every fetch delivers the one-byte content `[1]`, which is read back and removed without
error. -/
def wrongContentEnv : Int → AttemptEvents :=
  fun _ => ⟨.ok [1], .ok, true⟩

/-- Every fetch delivers the empty content, which is read back and removed without error. -/
def emptyContentEnv : Int → AttemptEvents :=
  fun _ => ⟨.ok [], .ok, true⟩

/-- A fetch that delivers `[1]`, after which the file cannot be read back. -/
def unreadableAttempt : AttemptEvents :=
  ⟨.ok [1], .readErr, true⟩

/-- A fetch that delivers `[1]`, which is read back: a digest mismatch for `twoAttemptJob`. -/
def mismatchAttempt : AttemptEvents :=
  ⟨.ok [1], .ok, true⟩

/-- The first attempt is a digest mismatch for `twoAttemptJob`, the later ones fail in
`http.Get`. -/
def mixedFailureEnv : Int → AttemptEvents :=
  fun k => if k = 1 then mismatchAttempt else ⟨.getErr, .ok, true⟩

/-! ## The worker pool of `main` (versions 3 and 4) -/

/-- Where the goroutine running `main` is. -/
inductive MainPC where
  /-- At the test `i <= workerCount` of the loop that starts the workers. -/
  | adding (i : Nat)
  /-- After `wg.Add(1)`, before `go worker(i, jobChan, &wg)`. -/
  | starting (i : Nat)
  /-- In the loop `for _, job := range jobs`, or before `close(jobChan)` once it is over. -/
  | sending
  /-- At `wg.Wait()`. -/
  | waiting
  /-- After `wg.Wait()` has returned. -/
  | finished
deriving DecidableEq, Repr

/-- Where a worker goroutine is. -/
inductive WorkerPC (α : Type) where
  /-- At the receive of `for job := range jobs`. -/
  | receiving
  /-- In the body of the loop, with the job it received. -/
  | working (job : α)
  /-- Returned; the deferred `wg.Done()` has run. -/
  | returned
deriving DecidableEq, Repr

/-- The shared state of `main` and its workers. `α` is the type of jobs (`DownloadJob` of
version 3 or of version 4). `sent` and `done` are histories: the jobs sent on the channel so
far, and the jobs whose processing is over, each with the id of the worker that processed it. -/
structure Pool (α : Type) where
  main : MainPC
  /-- Jobs the sending loop has not reached yet. -/
  pending : List α
  /-- Buffer of `jobChan`, oldest first. -/
  chan : List α
  /-- Capacity of `jobChan`, `len(jobs)`. -/
  cap : Nat
  closed : Bool
  /-- Counter of the `WaitGroup`. -/
  wg : Int
  /-- Worker goroutines started so far; the worker with id `i` is at index `i - 1`. -/
  workers : List (WorkerPC α)
  sent : List α
  done : List (Nat × α)
deriving DecidableEq, Repr

/-- One atomic step of one goroutine. -/
inductive Action where
  /-- The next statement of `main`. -/
  | main
  /-- The worker at index `w` receives a job from the channel. -/
  | receive (w : Nat)
  /-- The worker at index `w` reaches the end of the loop body. -/
  | finish (w : Nat)
  /-- The worker at index `w` finds the channel closed and empty, and returns. -/
  | leave (w : Nat)
deriving DecidableEq, Repr

/-- State of `main` after `jobChan := make(chan DownloadJob, len(jobs))` and `var wg`. -/
def Pool.init {α : Type} (jobs : List α) : Pool α :=
  { main := .adding 1, pending := jobs, chan := [], cap := jobs.length, closed := false,
    wg := 0, workers := [], sent := [], done := [] }

/-- The step of `main`: `none` when `main` is blocked (a send on a full channel, a wait on a
non-zero counter) or has finished. -/
def Pool.stepMain {α : Type} (workerCount : Nat) (s : Pool α) : Option (Pool α) :=
  match s.main with
  | .adding i =>
    if i ≤ workerCount then some { s with wg := s.wg + 1, main := .starting i }
    else some { s with main := .sending }
  | .starting i =>
    some { s with workers := s.workers ++ [.receiving], main := .adding (i + 1) }
  | .sending =>
    match s.pending with
    | job :: rest =>
      if s.chan.length < s.cap then
        some { s with chan := s.chan ++ [job], sent := s.sent ++ [job], pending := rest }
      else none
    | [] => some { s with closed := true, main := .waiting }
  | .waiting => if s.wg = 0 then some { s with main := .finished } else none
  | .finished => none

/-- One step of the pool: `none` when the action is not enabled in `s`. -/
def Pool.step {α : Type} (workerCount : Nat) (s : Pool α) : Action → Option (Pool α)
  | .main => s.stepMain workerCount
  | .receive w =>
    match s.workers[w]?, s.chan with
    | some .receiving, job :: rest =>
      some { s with chan := rest, workers := s.workers.set w (.working job) }
    | _, _ => none
  | .finish w =>
    match s.workers[w]? with
    | some (.working job) =>
      some { s with workers := s.workers.set w .receiving, done := s.done ++ [(w + 1, job)] }
    | _ => none
  | .leave w =>
    match s.workers[w]?, s.chan, s.closed with
    | some .receiving, [], true =>
      some { s with workers := s.workers.set w .returned, wg := s.wg - 1 }
    | _, _, _ => none

/-- The pool after a schedule, an interleaving of the goroutines' steps; `none` when the
schedule asks for a step that is not enabled. -/
def Pool.run {α : Type} (workerCount : Nat) : Pool α → List Action → Option (Pool α)
  | s, [] => some s
  | s, a :: rest =>
    match s.step workerCount a with
    | some s1 => Pool.run workerCount s1 rest
    | none => none

/-- Jobs that workers are processing. -/
def workingJobs {α : Type} : List (WorkerPC α) → List α
  | [] => []
  | .working job :: ws => job :: workingJobs ws
  | .receiving :: ws => workingJobs ws
  | .returned :: ws => workingJobs ws

/-- Number of workers that have not returned. -/
def liveCount {α : Type} : List (WorkerPC α) → Nat
  | [] => 0
  | .returned :: ws => liveCount ws
  | .receiving :: ws => liveCount ws + 1
  | .working _ :: ws => liveCount ws + 1

/-- Number of `wg.Add(1)` calls whose worker has not been started yet. -/
def MainPC.unstarted : MainPC → Nat
  | .starting _ => 1
  | _ => 0

/-- Invariant of the pool started on `jobs` with `workerCount` workers. -/
structure Pool.Inv {α : Type} (jobs : List α) (workerCount : Nat) (s : Pool α) : Prop where
  sent_pending : s.sent ++ s.pending = jobs
  perm : (s.done.map Prod.snd ++ workingJobs s.workers ++ s.chan).Perm s.sent
  wg_eq : s.wg = liveCount s.workers + s.main.unstarted
  closed_iff : s.closed = true ↔ (s.main = .waiting ∨ s.main = .finished)
  closed_pending : s.closed = true → s.pending = []
  drained : liveCount s.workers < s.workers.length → s.closed = true ∧ s.chan = []
  started : match s.main with
    | .adding i => s.workers.length + 1 = i ∧ i ≤ workerCount + 1
    | .starting i => s.workers.length + 1 = i ∧ i ≤ workerCount
    | _ => s.workers.length = workerCount
  finished_wg : s.main = .finished → s.wg = 0
  done_ids : ∀ p ∈ s.done, 1 ≤ p.1 ∧ p.1 ≤ s.workers.length

/-- The job list of `main` in version 4. -/
def mainJobs : List DownloadJob :=
  [{ URL := "https://upload.wikimedia.org/wikipedia/commons/3/3f/Fronalpstock_big.jpg",
     Filename := "mountain.jpg",
     ExpectedHash := "3f4f36a92296d008b9e3897fc02fdb0190d2db66317c38c8e0f292d0f86959a4",
     MaxRetries := 3 },
   { URL :=
       "https://upload.wikimedia.org/wikipedia/commons/4/47/PNG_transparency_demonstration_1.png",
     Filename := "transparency.png",
     ExpectedHash := "fb3f03c9816d2a4985d6d942b1e4a1cf655f5306d861126317b07c4a2c12b3ed",
     MaxRetries := 3 }]

/-- The constant `workerCount` of `main`. -/
def workerCount : Nat := 2

/-- A schedule for two jobs and two workers: `main` starts both workers, sends both jobs and
closes the channel; each worker takes one job; the second worker ends its job first; both
workers return; `wg.Wait()` returns. -/
def sampleSchedule : List Action :=
  [.main, .main, .main, .main, .main, .main, .main, .main,
   .receive 0, .receive 1, .finish 1, .finish 0, .leave 0, .leave 1, .main]

/-- A job with `MaxRetries = 0`. -/
def zeroAttemptJob : DownloadJob :=
  { URL := "A", Filename := "dest", ExpectedHash := emptyDigest, MaxRetries := 0 }

/-- A schedule for one job and two workers, up to the first worker taking the job. -/
def handOverSchedule : List Action :=
  [.main, .main, .main, .main, .main, .main, .receive 0]

/-- A complete schedule for one job and two workers: the first worker takes the job and ends
it, both workers return, `wg.Wait()` returns. -/
def zeroJobSchedule : List Action :=
  [.main, .main, .main, .main, .main, .main, .main,
   .receive 0, .finish 0, .leave 1, .leave 0, .main]

/-- The pool after `zeroJobSchedule` on the job list `[zeroAttemptJob]`. -/
def zeroJobFinishedPool : Pool DownloadJob :=
  { main := .finished, pending := [], chan := [], cap := 1, closed := true, wg := 0,
    workers := [.returned, .returned], sent := [zeroAttemptJob],
    done := [(1, zeroAttemptJob)] }

/-- The pool after `sampleSchedule` on `mainJobs`: the second worker processed the second
job, the first worker the first. -/
def finishedPool : Pool DownloadJob :=
  { main := .finished, pending := [], chan := [], cap := 2, closed := true, wg := 0,
    workers := [.returned, .returned], sent := mainJobs,
    done := [(2, mainJobs.getD 1 zeroAttemptJob), (1, mainJobs.getD 0 zeroAttemptJob)] }

/-- A complete schedule for any job list: `main` starts the workers, sends every job, closes
the channel; the first worker receives and ends every job; the workers return in order;
`wg.Wait()` returns. -/
def completeSchedule {α : Type} (jobs : List α) (workerCount : Nat) : List Action :=
  List.replicate (2 * workerCount) Action.main ++ [Action.main] ++
    List.replicate jobs.length Action.main ++ [Action.main] ++
    jobs.flatMap (fun _ => [Action.receive 0, Action.finish 0]) ++
    (List.range' 0 workerCount).map Action.leave ++ [Action.main]

/-! ## Facts about the digest -/

theorem wordBytes_length (x : Nat) : (wordBytes x).length = 4 := rfl

theorem sha256Sum_length (msg : List Nat) : (sha256Sum msg).length = 32 := by
  simp [sha256Sum, wordBytes_length]

theorem hexLower_length (bytes : List Nat) : (hexLower bytes).length = 2 * bytes.length := by
  unfold hexLower
  rw [String.length_mk]
  induction bytes with
  | nil => rfl
  | cons b rest ih => simp [List.flatMap_cons, ih]; omega

theorem digest_length (content : List Nat) : (hexLower (sha256Sum content)).length = 64 := by
  rw [hexLower_length, sha256Sum_length]

theorem digest_ne_empty (content : List Nat) : hexLower (sha256Sum content) ≠ "" := by
  intro h
  have := digest_length content
  rw [h] at this
  exact absurd this (by decide)

theorem hexDigit_not_upper (n : Nat) : (hexDigit n).isUpper = false := by
  unfold hexDigit
  by_cases h : n < 16
  · interval_cases n <;> decide
  · have : "0123456789abcdef".toList.length ≤ n := by
      have : "0123456789abcdef".toList.length = 16 := by decide
      omega
    rw [List.getD_eq_default _ _ this]
    decide

theorem hexLower_not_upper (bytes : List Nat) :
    ∀ ch ∈ (hexLower bytes).toList, ch.isUpper = false := by
  unfold hexLower
  intro ch hch
  simp only [String.toList, List.mem_flatMap, List.mem_cons, List.mem_singleton,
    List.not_mem_nil, or_false] at hch
  obtain ⟨b, _, hb⟩ := hch
  rcases hb with hb | hb <;> rw [hb] <;> exact hexDigit_not_upper _

/-! ## One attempt -/

theorem attemptBody_fetches (job : DownloadJob) (ev : AttemptEvents) (st : WorkerState) :
    (attemptBody job ev st).1.fetches = st.fetches + 1 := by
  unfold attemptBody downloadFile verifyChecksum
  rcases ev with ⟨f, r, b⟩
  cases f <;> cases r <;> simp
  all_goals split <;> rfl


theorem attemptBody_of_verifies (job : DownloadJob) (ev : AttemptEvents) (st : WorkerState)
    (h : attemptVerifies job ev = true) :
    ∃ body, ev.fetch = .ok body ∧ hexLower (sha256Sum body) = job.ExpectedHash ∧
      attemptBody job ev st =
        ({ st with file := some body, fetches := st.fetches + 1, verifies := st.verifies + 1,
                   success := true }, .stop) := by
  rcases ev with ⟨f, r, b⟩
  cases f <;> cases r <;> simp [attemptVerifies] at h
  rename_i body
  exact ⟨body, rfl, h, by simp [attemptBody, downloadFile, verifyChecksum, h]⟩

theorem attemptBody_of_not_verifies (job : DownloadJob) (ev : AttemptEvents) (st : WorkerState)
    (h : attemptVerifies job ev = false) :
    (attemptBody job ev st).2 = .next ∧ (attemptBody job ev st).1.success = st.success ∧
      (attemptBody job ev st).1.removes ≤ st.removes + 1 := by
  rcases ev with ⟨f, r, b⟩
  cases f <;> cases r <;>
    simp [attemptVerifies] at h <;>
    simp [attemptBody, downloadFile, verifyChecksum, h]

theorem attemptBody_mismatch (job : DownloadJob) (ev : AttemptEvents) (st : WorkerState)
    (body : List Nat) (hf : ev.fetch = .ok body) (hr : ev.read = .ok)
    (hne : hexLower (sha256Sum body) ≠ job.ExpectedHash) :
    attemptBody job ev st =
      ({ st with file := osRemove (some body) ev.removeOk, fetches := st.fetches + 1,
                 verifies := st.verifies + 1, removes := st.removes + 1,
                 sleeps := st.sleeps ++ [2] }, .next) := by
  rcases ev with ⟨f, r, b⟩
  simp only at hf hr
  subst hf hr
  simp [attemptBody, downloadFile, verifyChecksum, hne]

/-! ## The retry loop -/

theorem retryLoop_done (job : DownloadJob) (env : Int → AttemptEvents) (fuel : Nat)
    (attempt : Int) (st : WorkerState) (h : ¬ attempt ≤ job.MaxRetries) :
    retryLoop job env (fuel + 1) attempt st = some st := by
  rw [retryLoop, if_neg h]

theorem retryLoop_next (job : DownloadJob) (env : Int → AttemptEvents) (fuel : Nat)
    (attempt : Int) (st : WorkerState) (h : attempt ≤ job.MaxRetries)
    (hn : (attemptBody job (env attempt) st).2 = .next) :
    retryLoop job env (fuel + 1) attempt st =
      retryLoop job env fuel (attempt + 1) (attemptBody job (env attempt) st).1 := by
  rw [retryLoop, if_pos h]
  rcases hb : attemptBody job (env attempt) st with ⟨st1, c⟩
  rw [hb] at hn
  simp only at hn
  subst hn
  rfl

theorem retryLoop_stop (job : DownloadJob) (env : Int → AttemptEvents) (fuel : Nat)
    (attempt : Int) (st : WorkerState) (h : attempt ≤ job.MaxRetries)
    (hs : (attemptBody job (env attempt) st).2 = .stop) :
    retryLoop job env (fuel + 1) attempt st = some (attemptBody job (env attempt) st).1 := by
  rw [retryLoop, if_pos h]
  rcases hb : attemptBody job (env attempt) st with ⟨st1, c⟩
  rw [hb] at hs
  simp only at hs
  subst hs
  rfl

/-- Iterations that all end in `next` carry an invariant `P` from attempt `a` to attempt `k`. -/
theorem retryLoop_prefix (job : DownloadJob) (env : Int → AttemptEvents)
    (P : Int → WorkerState → Prop) (k : Int) (hk : k ≤ job.MaxRetries + 1)
    (hstep : ∀ a st, a < k → P a st →
      (attemptBody job (env a) st).2 = .next ∧ P (a + 1) (attemptBody job (env a) st).1) :
    ∀ (d : Nat) (a : Int) (st : WorkerState) (fuel : Nat), a + d = k → P a st →
      ∃ st', P k st' ∧ retryLoop job env (fuel + d) a st = retryLoop job env fuel k st' := by
  intro d
  induction d with
  | zero =>
    intro a st fuel had hP
    have : a = k := by omega
    subst this
    exact ⟨st, hP, rfl⟩
  | succ d ih =>
    intro a st fuel had hP
    have hlt : a < k := by omega
    obtain ⟨hn, hP1⟩ := hstep a st hlt hP
    obtain ⟨st', hP', he⟩ := ih (a + 1) _ fuel (by omega) hP1
    refine ⟨st', hP', ?_⟩
    rw [← he, ← Nat.add_assoc]
    exact retryLoop_next job env (fuel + d) a st (by omega) hn

/-- With enough fuel the loop is left, after at most `MaxRetries + 1 - attempt` more calls of
`downloadFile`. -/
theorem retryLoop_total (job : DownloadJob) (env : Int → AttemptEvents) :
    ∀ (fuel : Nat) (a : Int) (st : WorkerState), (job.MaxRetries + 1 - a).toNat < fuel →
      ∃ st', retryLoop job env fuel a st = some st' ∧
        st'.fetches ≤ st.fetches + (job.MaxRetries + 1 - a).toNat := by
  intro fuel
  induction fuel with
  | zero => intro a st h; omega
  | succ fuel ih =>
    intro a st h
    by_cases hle : a ≤ job.MaxRetries
    · rcases hc : (attemptBody job (env a) st).2 with _ | _
      · rw [retryLoop_next job env fuel a st hle hc]
        obtain ⟨st', he, hf⟩ := ih (a + 1) (attemptBody job (env a) st).1 (by omega)
        refine ⟨st', he, ?_⟩
        rw [attemptBody_fetches] at hf
        omega
      · rw [retryLoop_stop job env fuel a st hle hc]
        refine ⟨_, rfl, ?_⟩
        rw [attemptBody_fetches]
        omega
    · exact ⟨st, retryLoop_done job env fuel a st hle, by omega⟩

/-- A run in which every attempt ends in `next`: the loop is left by its condition, and an
invariant of the iterations holds at the end. -/
theorem worker_exhausted (job : DownloadJob) (env : Int → AttemptEvents)
    (file : Option (List Nat)) (P : Int → WorkerState → Prop)
    (hn : 0 ≤ job.MaxRetries) (h0 : P 1 (WorkerState.start file))
    (hstep : ∀ a st, a ≤ job.MaxRetries → P a st →
      (attemptBody job (env a) st).2 = .next ∧ P (a + 1) (attemptBody job (env a) st).1) :
    ∃ st, P (job.MaxRetries + 1) st ∧
      worker job env file =
        some (st, if st.success then .completed else .failed job.MaxRetries) := by
  have hd : (1 : Int) + (job.MaxRetries.toNat : Nat) = job.MaxRetries + 1 := by omega
  obtain ⟨st, hP, he⟩ := retryLoop_prefix job env P (job.MaxRetries + 1) (le_refl _)
    (fun a st ha hP => hstep a st (by omega) hP) job.MaxRetries.toNat 1
    (WorkerState.start file) 1 hd h0
  refine ⟨st, hP, ?_⟩
  unfold worker
  rw [Nat.add_comm, he, retryLoop_done job env 0 _ st (by omega)]
  rfl

/-- A run whose first `k - 1` attempts end in `next` and whose attempt `k` verifies. -/
theorem worker_stops_at (job : DownloadJob) (env : Int → AttemptEvents)
    (file : Option (List Nat)) (P : Int → WorkerState → Prop) (k : Int)
    (hk1 : 1 ≤ k) (hk : k ≤ job.MaxRetries) (h0 : P 1 (WorkerState.start file))
    (hstep : ∀ a st, a < k → P a st →
      (attemptBody job (env a) st).2 = .next ∧ P (a + 1) (attemptBody job (env a) st).1)
    (hgood : attemptVerifies job (env k) = true) :
    ∃ st body, P k st ∧ (env k).fetch = .ok body ∧
      hexLower (sha256Sum body) = job.ExpectedHash ∧
      worker job env file =
        some ({ st with file := some body, fetches := st.fetches + 1,
                        verifies := st.verifies + 1, success := true }, .completed) := by
  have hd : (1 : Int) + ((k - 1).toNat : Nat) = k := by omega
  obtain ⟨st, hP, he⟩ := retryLoop_prefix job env P k (by omega) hstep (k - 1).toNat 1
    (WorkerState.start file) ((job.MaxRetries - k).toNat + 1 + 1) hd h0
  obtain ⟨body, hf, hh, hb⟩ := attemptBody_of_verifies job (env k) st hgood
  refine ⟨st, body, hP, hf, hh, ?_⟩
  unfold worker
  have hfuel : job.MaxRetries.toNat + 1 =
      (job.MaxRetries - k).toNat + 1 + 1 + (k - 1).toNat := by
    omega
  rw [hfuel, he, retryLoop_stop job env _ k st hk (by rw [hb]), hb]
  rfl


theorem exists_first_verifying (job : DownloadJob) (env : Int → AttemptEvents) (n : Int)
    (h : ∃ k, 1 ≤ k ∧ k ≤ n ∧ attemptVerifies job (env k) = true) :
    ∃ k, 1 ≤ k ∧ k ≤ n ∧ attemptVerifies job (env k) = true ∧
      ∀ j, 1 ≤ j → j < k → attemptVerifies job (env j) = false := by
  obtain ⟨k, hk1, hkn, hg⟩ := h
  have hex : ∃ m : Nat, attemptVerifies job (env ((m : Int) + 1)) = true := by
    refine ⟨(k - 1).toNat, ?_⟩
    have : (((k - 1).toNat : Nat) : Int) + 1 = k := by omega
    rw [this]
    exact hg
  have hmin : Nat.find hex ≤ (k - 1).toNat := by
    apply Nat.find_min'
    have : (((k - 1).toNat : Nat) : Int) + 1 = k := by omega
    rw [this]
    exact hg
  refine ⟨(Nat.find hex : Int) + 1, by omega, by omega, Nat.find_spec hex, ?_⟩
  intro j hj1 hjlt
  have hlt : (j - 1).toNat < Nat.find hex := by omega
  have hnot := Nat.find_min hex hlt
  have : (((j - 1).toNat : Nat) : Int) + 1 = j := by omega
  rw [this] at hnot
  simpa using hnot

/-! ## The claims about the worker -/

/-- C1: for maxAttempts = n >= 1 and any sequence of attempt results, the worker returns, and
reports the job completed exactly when some attempt k <= n fetches successfully and verifies;
then k is the first such attempt, exactly k calls of downloadFile were made, and the file
written by attempt k is still at the destination, with the expected digest. -/
theorem completed_iff_some_attempt_verifies (job : DownloadJob) (env : Int → AttemptEvents)
    (file : Option (List Nat)) (hn : 1 ≤ job.MaxRetries) :
    ∃ st out, worker job env file = some (st, out) ∧
      (out = .completed ↔
        ∃ k, 1 ≤ k ∧ k ≤ job.MaxRetries ∧ attemptVerifies job (env k) = true) ∧
      (out = .completed →
        ∃ k body, 1 ≤ k ∧ k ≤ job.MaxRetries ∧ attemptVerifies job (env k) = true ∧
          (∀ j, 1 ≤ j → j < k → attemptVerifies job (env j) = false) ∧
          (st.fetches : Int) = k ∧ (st.removes : Int) < k ∧
          (env k).fetch = .ok body ∧ st.file = some body ∧
          hexLower (sha256Sum body) = job.ExpectedHash) := by
  by_cases hex : ∃ k, 1 ≤ k ∧ k ≤ job.MaxRetries ∧ attemptVerifies job (env k) = true
  · obtain ⟨k, hk1, hkn, hg, hfirst⟩ := exists_first_verifying job env job.MaxRetries hex
    obtain ⟨st, body, hP, hf, hh, hw⟩ := worker_stops_at job env file
      (fun a st => 1 ≤ a ∧ (st.fetches : Int) = a - 1 ∧ (st.removes : Int) ≤ a - 1)
      k hk1 hkn ⟨le_refl _, by simp [WorkerState.start], by simp [WorkerState.start]⟩
      (by
        intro a st ha hP
        obtain ⟨h1, h2, h3⟩ := hP
        obtain ⟨hnext, _, hrem⟩ := attemptBody_of_not_verifies job (env a) st (hfirst a h1 ha)
        refine ⟨hnext, by omega, ?_, ?_⟩
        · rw [attemptBody_fetches]; push_cast; omega
        · omega)
      hg
    obtain ⟨_, h2, h3⟩ := hP
    refine ⟨_, _, hw, ⟨fun _ => hex, fun _ => rfl⟩, fun _ => ?_⟩
    refine ⟨k, body, hk1, hkn, hg, hfirst, ?_, ?_, hf, rfl, hh⟩
    · simp only; push_cast; omega
    · simp only; omega
  · obtain ⟨st, hP, hw⟩ := worker_exhausted job env file
      (fun a st => 1 ≤ a ∧ st.success = false) (by omega) ⟨le_refl _, rfl⟩
      (by
        intro a st ha hP
        have hnv : attemptVerifies job (env a) = false := by
          by_contra hc
          exact hex ⟨a, hP.1, ha, by simpa using hc⟩
        obtain ⟨hnext, hs, _⟩ := attemptBody_of_not_verifies job (env a) st hnv
        exact ⟨hnext, by omega, hs.trans hP.2⟩)
    have hout : (if st.success = true then Outcome.completed else Outcome.failed job.MaxRetries)
        = Outcome.failed job.MaxRetries := by simp [hP.2]
    rw [hout] at hw
    refine ⟨_, _, hw, ⟨fun h => ?_, fun h => absurd h hex⟩, fun h => ?_⟩ <;> cases h


/-- A run in which no attempt verifies makes `MaxRetries` calls of `downloadFile` and reports
the job failed. -/
theorem worker_never_verifies (job : DownloadJob) (env : Int → AttemptEvents)
    (file : Option (List Nat)) (hn : 0 ≤ job.MaxRetries)
    (hall : ∀ k, 1 ≤ k → k ≤ job.MaxRetries → attemptVerifies job (env k) = false) :
    ∃ st, worker job env file = some (st, .failed job.MaxRetries) ∧
      (st.fetches : Int) = job.MaxRetries := by
  obtain ⟨st, hP, hw⟩ := worker_exhausted job env file
    (fun a st => 1 ≤ a ∧ st.success = false ∧ (st.fetches : Int) = a - 1) hn
    ⟨le_refl _, rfl, by simp [WorkerState.start]⟩
    (by
      intro a st ha hP
      obtain ⟨h1, h2, h3⟩ := hP
      obtain ⟨hnext, hs, _⟩ := attemptBody_of_not_verifies job (env a) st (hall a h1 ha)
      refine ⟨hnext, by omega, hs.trans h2, ?_⟩
      rw [attemptBody_fetches]; push_cast; omega)
  obtain ⟨_, h2, h3⟩ := hP
  refine ⟨st, ?_, by omega⟩
  rw [hw]; simp [h2]


/-- C2: MaxRetries is the total number of fetch attempts: with maxAttempts = n >= 1 the worker
returns after at most n calls of downloadFile, and when no attempt both fetches successfully
and verifies it makes exactly n calls and reports the job failed after n attempts. -/
theorem maxRetries_is_total_attempts (job : DownloadJob) (env : Int → AttemptEvents)
    (file : Option (List Nat)) (hn : 1 ≤ job.MaxRetries) :
    ∃ st out, worker job env file = some (st, out) ∧
      (st.fetches : Int) ≤ job.MaxRetries ∧
      ((∀ k, 1 ≤ k → k ≤ job.MaxRetries → attemptVerifies job (env k) = false) →
        (st.fetches : Int) = job.MaxRetries ∧ out = .failed job.MaxRetries) := by
  obtain ⟨st, he, hle⟩ := retryLoop_total job env (job.MaxRetries.toNat + 1) 1
    (WorkerState.start file) (by omega)
  refine ⟨st, _, by rw [worker, he]; rfl, ?_, ?_⟩
  · simp only [WorkerState.start] at hle
    omega
  · intro hall
    obtain ⟨st', hw, hf⟩ := worker_never_verifies job env file (by omega) hall
    have hst : st' = st := by
      have := hw
      rw [worker, he] at this
      simp only [Option.map_some', Option.some.injEq, Prod.mk.injEq] at this
      exact this.1.symm
    subst hst
    have hout := hw
    rw [worker, he] at hout
    simp only [Option.map_some', Option.some.injEq, Prod.mk.injEq, true_and] at hout
    exact ⟨hf, hout⟩

/-- C3: when every attempt of a job with maxAttempts = n >= 1 fetches successfully and the
file, read back, does not have the expected digest, each attempt calls os.Remove once after
its mismatch (and leaves no file when the removal succeeds), so the worker calls os.Remove n
times, the last attempt included, reports the job failed, and if the last removal succeeds no
file is left at the destination. -/
theorem mismatch_removes_file_every_attempt (job : DownloadJob) (env : Int → AttemptEvents)
    (file : Option (List Nat)) (hn : 1 ≤ job.MaxRetries)
    (hall : ∀ k, 1 ≤ k → k ≤ job.MaxRetries →
      ∃ body, (env k).fetch = .ok body ∧ (env k).read = .ok ∧
        hexLower (sha256Sum body) ≠ job.ExpectedHash) :
    (∀ k st, 1 ≤ k → k ≤ job.MaxRetries →
      (attemptBody job (env k) st).1.removes = st.removes + 1 ∧
        ((env k).removeOk = true → (attemptBody job (env k) st).1.file = none)) ∧
    ∃ st, worker job env file = some (st, .failed job.MaxRetries) ∧
      (st.fetches : Int) = job.MaxRetries ∧ (st.removes : Int) = job.MaxRetries ∧
      ((env job.MaxRetries).removeOk = true → st.file = none) := by
  refine ⟨?_, ?_⟩
  · intro k st hk1 hkn
    obtain ⟨body, hf, hr, hne⟩ := hall k hk1 hkn
    rw [attemptBody_mismatch job (env k) st body hf hr hne]
    exact ⟨rfl, fun hrm => by simp [osRemove, hrm]⟩
  obtain ⟨st, hP, hw⟩ := worker_exhausted job env file
    (fun a st => 1 ≤ a ∧ st.success = false ∧ (st.fetches : Int) = a - 1 ∧
      (st.removes : Int) = a - 1 ∧ (1 < a → (env (a - 1)).removeOk = true → st.file = none))
    (by omega)
    ⟨le_refl _, rfl, by simp [WorkerState.start], by simp [WorkerState.start],
      fun h => absurd h (by decide)⟩
    (by
      intro a st ha hP
      obtain ⟨h1, h2, h3, h4, _⟩ := hP
      obtain ⟨body, hf, hr, hne⟩ := hall a h1 ha
      rw [attemptBody_mismatch job (env a) st body hf hr hne]
      refine ⟨rfl, by omega, h2, ?_, ?_, ?_⟩
      · simp only; push_cast; omega
      · simp only; push_cast; omega
      · intro _ hrm
        have : a + 1 - 1 = a := by omega
        rw [this] at hrm
        simp [osRemove, hrm])
  obtain ⟨_, h2, h3, h4, h5⟩ := hP
  refine ⟨st, ?_, by omega, by omega, ?_⟩
  · rw [hw]; simp [h2]
  · intro hrm
    apply h5 (by omega)
    have : job.MaxRetries + 1 - 1 = job.MaxRetries := by omega
    rw [this]
    exact hrm

/-- C4, as the code has it: an empty ExpectedHash does not skip verification. After a
successful fetch verifyChecksum is called and, the file being readable, the worker takes the
mismatch path (os.Remove, then the 2-second sleep, then the next attempt); with
maxAttempts = n >= 1 the job is never completed: exactly n fetch attempts are made and the job
is reported failed. -/
theorem empty_expected_hash_never_completes (job : DownloadJob) (env : Int → AttemptEvents)
    (file : Option (List Nat)) (hn : 1 ≤ job.MaxRetries) (he : job.ExpectedHash = "") :
    (∀ ev st body, ev.fetch = .ok body → ev.read = .ok →
      attemptBody job ev st =
        ({ st with file := osRemove (some body) ev.removeOk, fetches := st.fetches + 1,
                   verifies := st.verifies + 1, removes := st.removes + 1,
                   sleeps := st.sleeps ++ [2] }, .next)) ∧
    ∃ st, worker job env file = some (st, .failed job.MaxRetries) ∧
      (st.fetches : Int) = job.MaxRetries := by
  have hnv : ∀ ev, attemptVerifies job ev = false := by
    intro ev
    rcases ev with ⟨f, r, b⟩
    cases f <;> cases r <;> simp [attemptVerifies, he, digest_ne_empty]
  constructor
  · intro ev st body hf hr
    exact attemptBody_mismatch job ev st body hf hr (by rw [he]; exact digest_ne_empty body)
  · exact worker_never_verifies job env file (by omega) (fun k _ _ => hnv (env k))

/-- C7, as the code has it: verifyChecksum reports a match exactly when the file can be read
and the expected string is, character for character, the complete lower-case hexadecimal
SHA-256 digest of its content; so no string whose length is not 64 matches, and no spelling
with an upper-case letter matches. -/
theorem verifyChecksum_match_iff (file : Option (List Nat)) (ev : ReadEvent)
    (expected : String) :
    ((verifyChecksum file ev expected).1 = true ↔
      ∃ content, file = some content ∧ ev = .ok ∧
        expected = hexLower (sha256Sum content)) ∧
    (expected.length ≠ 64 → (verifyChecksum file ev expected).1 = false) ∧
    ((∃ ch ∈ expected.toList, ch.isUpper = true) →
      (verifyChecksum file ev expected).1 = false) := by
  have hiff : (verifyChecksum file ev expected).1 = true ↔
      ∃ content, file = some content ∧ ev = .ok ∧
        expected = hexLower (sha256Sum content) := by
    cases file with
    | none => simp [verifyChecksum]
    | some c =>
      cases ev with
      | openErr => simp [verifyChecksum]
      | readErr => simp [verifyChecksum]
      | ok =>
        constructor
        · intro h
          have h' : hexLower (sha256Sum c) = expected := by
            simpa [verifyChecksum] using h
          exact ⟨c, rfl, rfl, h'.symm⟩
        · rintro ⟨content, hc, _, hx⟩
          cases hc
          simp [verifyChecksum, hx]
  refine ⟨hiff, ?_, ?_⟩
  · intro hlen
    cases hv : (verifyChecksum file ev expected).1
    · rfl
    · obtain ⟨content, _, _, hc⟩ := hiff.mp hv
      exact absurd (hc ▸ digest_length content) hlen
  · rintro ⟨ch, hch, hup⟩
    cases hv : (verifyChecksum file ev expected).1
    · rfl
    · obtain ⟨content, _, _, hc⟩ := hiff.mp hv
      rw [hc] at hch
      rw [hexLower_not_upper _ ch hch] at hup
      cases hup


/-! ## The claims on concrete runs -/

/-- The digest of the empty file, computed by the embedding of `crypto/sha256`. -/
theorem digest_of_empty : hexLower (sha256Sum []) = emptyDigest := by decide

/-- Known answer of FIPS 180-4 for the one-block message "abc". -/
theorem digest_of_abc :
    hexLower (sha256Sum [97, 98, 99]) =
      "ba7816bf8f01cfea414140de5dae2223b00361a396177a9cb410ff61f20015ad" := by decide

/-- Known answer of FIPS 180-4 for the 56-byte message
"abcdbcdecdefdefgefghfghighijhijkijkljklmklmnlmnomnopnopq", which pads to two blocks. -/
theorem digest_of_two_blocks :
    hexLower (sha256Sum
        ("abcdbcdecdefdefgefghfghighijhijkijkljklmklmnlmnomnopnopq".toList.map Char.toNat)) =
      "248d6a61d20638b8e5c026930c3e6039a33ce45964ff2167f6ecedd419db06c1" := by decide

/-- The scenario of the specification, run on the code: two mismatches, then a match. -/
theorem scenario_run :
    worker scenarioJob scenarioEnv none =
      some ({ file := some [], fetches := 3, verifies := 3, removes := 2, sleeps := [2, 2],
              success := true }, .completed) := by decide

/-- Witness of C1: the scenario of the specification, three attempts of which the third verifies. -/
theorem completed_iff_some_attempt_verifies_witness :
    (1 : Int) ≤ scenarioJob.MaxRetries ∧
    ∃ st out, worker scenarioJob scenarioEnv none = some (st, out) ∧
      (out = .completed ↔
        ∃ k, 1 ≤ k ∧ k ≤ scenarioJob.MaxRetries ∧
          attemptVerifies scenarioJob (scenarioEnv k) = true) ∧
      (out = .completed →
        ∃ k body, 1 ≤ k ∧ k ≤ scenarioJob.MaxRetries ∧
          attemptVerifies scenarioJob (scenarioEnv k) = true ∧
          (∀ j, 1 ≤ j → j < k → attemptVerifies scenarioJob (scenarioEnv j) = false) ∧
          (st.fetches : Int) = k ∧ (st.removes : Int) < k ∧
          (scenarioEnv k).fetch = .ok body ∧ st.file = some body ∧
          hexLower (sha256Sum body) = scenarioJob.ExpectedHash) :=
  ⟨by decide, completed_iff_some_attempt_verifies scenarioJob scenarioEnv none (by decide)⟩

/-- Witness of C2: a two-attempt job whose requests all fail. -/
theorem maxRetries_is_total_attempts_witness :
    (1 : Int) ≤ twoAttemptJob.MaxRetries ∧
    ∃ st out, worker twoAttemptJob requestFailsEnv none = some (st, out) ∧
      (st.fetches : Int) ≤ twoAttemptJob.MaxRetries ∧
      ((∀ k, 1 ≤ k → k ≤ twoAttemptJob.MaxRetries →
          attemptVerifies twoAttemptJob (requestFailsEnv k) = false) →
        (st.fetches : Int) = twoAttemptJob.MaxRetries ∧
          out = .failed twoAttemptJob.MaxRetries) :=
  ⟨by decide, maxRetries_is_total_attempts twoAttemptJob requestFailsEnv none (by decide)⟩

/-- Witness of C3: a two-attempt job whose fetches deliver content with another digest. -/
theorem mismatch_removes_file_every_attempt_witness :
    (1 : Int) ≤ twoAttemptJob.MaxRetries ∧
    (∀ k, 1 ≤ k → k ≤ twoAttemptJob.MaxRetries →
      ∃ body, (wrongContentEnv k).fetch = .ok body ∧ (wrongContentEnv k).read = .ok ∧
        hexLower (sha256Sum body) ≠ twoAttemptJob.ExpectedHash) ∧
    (∀ k st, 1 ≤ k → k ≤ twoAttemptJob.MaxRetries →
      (attemptBody twoAttemptJob (wrongContentEnv k) st).1.removes = st.removes + 1 ∧
        ((wrongContentEnv k).removeOk = true →
          (attemptBody twoAttemptJob (wrongContentEnv k) st).1.file = none)) ∧
    ∃ st, worker twoAttemptJob wrongContentEnv none =
        some (st, .failed twoAttemptJob.MaxRetries) ∧
      (st.fetches : Int) = twoAttemptJob.MaxRetries ∧
      (st.removes : Int) = twoAttemptJob.MaxRetries ∧
      ((wrongContentEnv twoAttemptJob.MaxRetries).removeOk = true → st.file = none) :=
  ⟨by decide, fun _ _ _ => ⟨[1], rfl, rfl, by decide⟩,
    mismatch_removes_file_every_attempt twoAttemptJob wrongContentEnv none (by decide)
      (fun _ _ _ => ⟨[1], rfl, rfl, by decide⟩)⟩

/-- C4 as stated fails: with an empty ExpectedHash and every fetch delivering the (empty)
file, the worker verifies, removes the file after each attempt, makes both attempts and
reports the job failed, where the claim has one attempt, the file kept and no failure. -/
theorem empty_expected_hash_job_fails :
    noDigestJob.ExpectedHash = "" ∧
      worker noDigestJob emptyContentEnv none =
        some ({ file := none, fetches := 2, verifies := 2, removes := 2, sleeps := [2, 2],
                success := false }, .failed 2) := by decide

/-- Witness of C4 as the code has it: a two-attempt job with an empty ExpectedHash. -/
theorem empty_expected_hash_never_completes_witness :
    (1 : Int) ≤ noDigestJob.MaxRetries ∧ noDigestJob.ExpectedHash = "" ∧
    ((∀ ev st body, ev.fetch = .ok body → ev.read = .ok →
      attemptBody noDigestJob ev st =
        ({ st with file := osRemove (some body) ev.removeOk, fetches := st.fetches + 1,
                   verifies := st.verifies + 1, removes := st.removes + 1,
                   sleeps := st.sleeps ++ [2] }, .next)) ∧
    ∃ st, worker noDigestJob emptyContentEnv none = some (st, .failed noDigestJob.MaxRetries) ∧
      (st.fetches : Int) = noDigestJob.MaxRetries) :=
  ⟨by decide, rfl,
    empty_expected_hash_never_completes noDigestJob emptyContentEnv none (by decide) rfl⟩

/-- C5 on a failing input: both attempts of a two-attempt job end when the response stream
breaks after three bytes. The worker reports the job failed after two attempts, but the
truncated file is still at the destination: os.Remove was never called. -/
theorem truncated_file_left_after_stream_failure :
    worker twoAttemptJob streamBreaksEnv none =
      some ({ file := some [1, 2, 3], fetches := 2, verifies := 0, removes := 0,
              sleeps := [2, 2], success := false }, .failed 2) := by decide

/-- C6 on a failing input: the same fetched content, once read back with a digest mismatch and
once unreadable. After the mismatch the file is removed and the worker sleeps 2 seconds; after
the read error the file is still there, os.Remove was not called and the worker does not
sleep. Both attempts end in the post statement of the loop. -/
theorem read_error_skips_remove_and_sleep :
    attemptBody twoAttemptJob mismatchAttempt (WorkerState.start none) =
      ({ file := none, fetches := 1, verifies := 1, removes := 1, sleeps := [2],
         success := false }, .next) ∧
    attemptBody twoAttemptJob unreadableAttempt (WorkerState.start none) =
      ({ file := some [1], fetches := 1, verifies := 1, removes := 0, sleeps := [],
         success := false }, .next) := by decide

/-- C7 as stated fails: the upper-case spelling of the digest of the empty file equals that
digest when letter case is ignored, and verifyChecksum reports no match. -/
theorem upper_case_digest_does_not_match :
    equalFold emptyDigestUpper (hexLower (sha256Sum [])) = true ∧
      verifyChecksum (some []) .ok emptyDigestUpper = (false, none) := by decide

/-- Witness of C7 as the code has it: the empty file against its lower-case digest. -/
theorem verifyChecksum_match_iff_witness :
    ((verifyChecksum (some []) .ok emptyDigest).1 = true ↔
      ∃ content, some [] = some content ∧ ReadEvent.ok = .ok ∧
        emptyDigest = hexLower (sha256Sum content)) ∧
    (emptyDigest.length ≠ 64 → (verifyChecksum (some []) .ok emptyDigest).1 = false) ∧
    ((∃ ch ∈ emptyDigest.toList, ch.isUpper = true) →
      (verifyChecksum (some []) .ok emptyDigest).1 = false) :=
  verifyChecksum_match_iff (some []) .ok emptyDigest

/-- C8 on a failing input: a two-attempt job whose first attempt is a digest mismatch and
whose second attempt is a fetch failure. The worker sleeps twice, the second time after the
last attempt, before it reports the job failed; the claim has one sleep. -/
theorem sleeps_after_last_attempt :
    worker twoAttemptJob mixedFailureEnv none =
      some ({ file := none, fetches := 2, verifies := 1, removes := 1, sleeps := [2, 2],
              success := false }, .failed 2) := by decide

/-! ## The worker pool: invariant -/

theorem workingJobs_append_receiving {α : Type} (ws : List (WorkerPC α)) :
    workingJobs (ws ++ [.receiving]) = workingJobs ws := by
  induction ws with
  | nil => rfl
  | cons x ws ih => cases x <;> simp [workingJobs, ih]

theorem liveCount_append_receiving {α : Type} (ws : List (WorkerPC α)) :
    liveCount (ws ++ [.receiving]) = liveCount ws + 1 := by
  induction ws with
  | nil => rfl
  | cons x ws ih => cases x <;> simp [liveCount, ih]

theorem liveCount_le_length {α : Type} (ws : List (WorkerPC α)) :
    liveCount ws ≤ ws.length := by
  induction ws with
  | nil => simp [liveCount]
  | cons x ws ih => cases x <;> simp [liveCount] <;> omega

theorem workingJobs_of_liveCount_zero {α : Type} (ws : List (WorkerPC α))
    (h : liveCount ws = 0) : workingJobs ws = [] := by
  induction ws with
  | nil => rfl
  | cons x ws ih =>
    cases x
    · simp [liveCount] at h
    · simp [liveCount] at h
    · simp only [liveCount] at h
      simp [workingJobs, ih h]

theorem set_receiving_to_working {α : Type} (job : α) :
    ∀ (ws : List (WorkerPC α)) (w : Nat), ws[w]? = some .receiving →
      (workingJobs (ws.set w (.working job))).Perm (job :: workingJobs ws) ∧
        liveCount (ws.set w (.working job)) = liveCount ws := by
  intro ws
  induction ws with
  | nil => intro w h; simp at h
  | cons x ws ih =>
    intro w h
    cases w with
    | zero =>
      simp only [List.getElem?_cons_zero, Option.some.injEq] at h
      subst h
      simp [workingJobs, liveCount]
    | succ w =>
      simp only [List.getElem?_cons_succ] at h
      obtain ⟨hp, hl⟩ := ih w h
      cases x
      · simpa [workingJobs, liveCount] using ⟨hp, hl⟩
      · simp only [List.set_cons_succ, workingJobs, liveCount, hl, and_true]
        exact (List.Perm.cons _ hp).trans (List.Perm.swap _ _ _)
      · simpa [workingJobs, liveCount] using ⟨hp, hl⟩

theorem set_working_to_receiving {α : Type} (job : α) :
    ∀ (ws : List (WorkerPC α)) (w : Nat), ws[w]? = some (.working job) →
      (job :: workingJobs (ws.set w .receiving)).Perm (workingJobs ws) ∧
        liveCount (ws.set w .receiving) = liveCount ws := by
  intro ws
  induction ws with
  | nil => intro w h; simp at h
  | cons x ws ih =>
    intro w h
    cases w with
    | zero =>
      simp only [List.getElem?_cons_zero, Option.some.injEq] at h
      subst h
      simp [workingJobs, liveCount]
    | succ w =>
      simp only [List.getElem?_cons_succ] at h
      obtain ⟨hp, hl⟩ := ih w h
      cases x
      · simpa [workingJobs, liveCount] using ⟨hp, hl⟩
      · simp only [List.set_cons_succ, workingJobs, liveCount, hl, and_true]
        exact (List.Perm.swap _ _ _).trans (List.Perm.cons _ hp)
      · simpa [workingJobs, liveCount] using ⟨hp, hl⟩

theorem set_receiving_to_returned {α : Type} :
    ∀ (ws : List (WorkerPC α)) (w : Nat), ws[w]? = some .receiving →
      workingJobs (ws.set w .returned) = workingJobs ws ∧
        liveCount (ws.set w .returned) + 1 = liveCount ws := by
  intro ws
  induction ws with
  | nil => intro w h; simp at h
  | cons x ws ih =>
    intro w h
    cases w with
    | zero =>
      simp only [List.getElem?_cons_zero, Option.some.injEq] at h
      subst h
      simp [workingJobs, liveCount]
    | succ w =>
      simp only [List.getElem?_cons_succ] at h
      obtain ⟨hp, hl⟩ := ih w h
      cases x <;> simp [workingJobs, liveCount, hp] <;> omega


theorem Pool.inv_init {α : Type} (jobs : List α) (workerCount : Nat) :
    Pool.Inv jobs workerCount (Pool.init jobs) where
  sent_pending := rfl
  perm := List.Perm.refl _
  wg_eq := rfl
  closed_iff := by simp [Pool.init]
  closed_pending := by simp [Pool.init]
  drained := by simp [Pool.init]
  started := by simp [Pool.init]
  finished_wg := by simp [Pool.init]
  done_ids := by simp [Pool.init]

theorem Pool.inv_stepMain {α : Type} {jobs : List α} {workerCount : Nat} {s s1 : Pool α}
    (hinv : Pool.Inv jobs workerCount s) (h : s.stepMain workerCount = some s1) :
    Pool.Inv jobs workerCount s1 := by
  obtain ⟨hsp, hperm, hwg, hci, hcp, hdr, hst, hfin, hid⟩ := hinv
  unfold Pool.stepMain at h
  split at h
  · rename_i i hm
    rw [hm] at hst
    have hnc : ¬ s.closed = true := by rw [hci, hm]; simp
    split at h
    · rename_i hle
      cases h
      exact
        { sent_pending := hsp
          perm := hperm
          wg_eq := by simp [hwg, hm, MainPC.unstarted]
          closed_iff := by simpa using hnc
          closed_pending := hcp
          drained := hdr
          started := ⟨hst.1, hle⟩
          finished_wg := by simp
          done_ids := hid }
    · rename_i hle
      cases h
      exact
        { sent_pending := hsp
          perm := hperm
          wg_eq := by simp [hwg, hm, MainPC.unstarted]
          closed_iff := by simpa using hnc
          closed_pending := hcp
          drained := hdr
          started := by
            show s.workers.length = workerCount
            have := hst.1
            have := hst.2
            omega
          finished_wg := by simp
          done_ids := hid }
  · rename_i i hm
    rw [hm] at hst
    have hnc : ¬ s.closed = true := by rw [hci, hm]; simp
    cases h
    exact
      { sent_pending := hsp
        perm := by simpa [workingJobs_append_receiving] using hperm
        wg_eq := by
          simp only [hwg, hm, MainPC.unstarted, liveCount_append_receiving]
          push_cast
          ring
        closed_iff := by simpa using hnc
        closed_pending := hcp
        drained := by
          intro hlt
          simp only [liveCount_append_receiving, List.length_append, List.length_singleton,
            Nat.add_lt_add_iff_right] at hlt
          exact hdr hlt
        started := by
          show (s.workers ++ [WorkerPC.receiving]).length + 1 = i + 1 ∧ i + 1 ≤ workerCount + 1
          have := hst.1
          have := hst.2
          simp only [List.length_append, List.length_singleton]
          omega
        finished_wg := by simp
        done_ids := by
          intro p hp
          have := hid p hp
          simp only [List.length_append, List.length_singleton]
          omega }
  · rename_i hm
    rw [hm] at hst
    have hnc : ¬ s.closed = true := by rw [hci, hm]; simp
    split at h
    · rename_i job rest hpend
      split at h
      · cases h
        exact
          { sent_pending := by simpa [hpend] using hsp
            perm := by
              have := List.Perm.append_right [job] hperm
              simpa [List.append_assoc] using this
            wg_eq := by simp [hwg, hm]
            closed_iff := by simpa [hm] using hnc
            closed_pending := fun hc => absurd hc hnc
            drained := fun hlt => absurd (hdr hlt).1 hnc
            started := by simpa [hm] using hst
            finished_wg := by simp [hm]
            done_ids := hid }
      · cases h
    · rename_i hpend
      cases h
      exact
        { sent_pending := hsp
          perm := hperm
          wg_eq := by simp [hwg, hm, MainPC.unstarted]
          closed_iff := by simp
          closed_pending := fun _ => hpend
          drained := fun hlt => absurd (hdr hlt).1 hnc
          started := hst
          finished_wg := by simp
          done_ids := hid }
  · rename_i hm
    rw [hm] at hst
    have hc : s.closed = true := by rw [hci, hm]; simp
    split at h
    · rename_i hz
      cases h
      exact
        { sent_pending := hsp
          perm := hperm
          wg_eq := by simp [hwg, hm, MainPC.unstarted]
          closed_iff := by simpa using hc
          closed_pending := hcp
          drained := hdr
          started := hst
          finished_wg := fun _ => hz
          done_ids := hid }
    · cases h
  · cases h


theorem Pool.inv_step {α : Type} {jobs : List α} {workerCount : Nat} {s s1 : Pool α}
    (a : Action) (hinv : Pool.Inv jobs workerCount s) (h : s.step workerCount a = some s1) :
    Pool.Inv jobs workerCount s1 := by
  cases a with
  | main => exact Pool.inv_stepMain hinv h
  | receive w =>
    obtain ⟨hsp, hperm, hwg, hci, hcp, hdr, hst, hfin, hid⟩ := hinv
    simp only [Pool.step] at h
    split at h
    · rename_i job rest hw hchan
      cases h
      obtain ⟨hp, hl⟩ := set_receiving_to_working job s.workers w hw
      have hfull : ¬ liveCount s.workers < s.workers.length := by
        intro hlt
        have := (hdr hlt).2
        rw [hchan] at this
        cases this
      exact
        { sent_pending := hsp
          perm := by
            refine List.Perm.trans ?_ hperm
            rw [hchan]
            simp only [List.append_assoc]
            refine List.Perm.append_left _ ?_
            refine (List.Perm.append_right rest hp).trans ?_
            simp only [List.cons_append]
            exact List.perm_middle.symm
          wg_eq := by simp only [hl]; exact hwg
          closed_iff := hci
          closed_pending := hcp
          drained := by
            intro hlt
            simp only [hl, List.length_set] at hlt
            exact absurd hlt hfull
          started := by simpa using hst
          finished_wg := hfin
          done_ids := by simpa using hid }
    · cases h
  | finish w =>
    obtain ⟨hsp, hperm, hwg, hci, hcp, hdr, hst, hfin, hid⟩ := hinv
    simp only [Pool.step] at h
    split at h
    · rename_i job hw
      cases h
      obtain ⟨hp, hl⟩ := set_working_to_receiving job s.workers w hw
      exact
        { sent_pending := hsp
          perm := by
            refine List.Perm.trans ?_ hperm
            simp only [List.map_append, List.map_cons, List.map_nil, List.append_assoc,
              List.singleton_append]
            refine List.Perm.append_left _ ?_
            have := List.Perm.append_right s.chan hp
            simpa using this
          wg_eq := by simp only [hl]; exact hwg
          closed_iff := hci
          closed_pending := hcp
          drained := by
            intro hlt
            simp only [hl, List.length_set] at hlt
            exact hdr hlt
          started := by simpa using hst
          finished_wg := hfin
          done_ids := by
            intro p hp
            simp only [List.mem_append, List.mem_singleton] at hp
            simp only [List.length_set]
            rcases hp with hp | hp
            · exact hid p hp
            · subst hp
              have hlt : w < s.workers.length := by
                by_contra hge
                rw [List.getElem?_eq_none (by omega)] at hw
                cases hw
              exact ⟨by simp, hlt⟩ }
    · cases h
  | leave w =>
    obtain ⟨hsp, hperm, hwg, hci, hcp, hdr, hst, hfin, hid⟩ := hinv
    simp only [Pool.step] at h
    split at h
    · rename_i hw hchan hclosed
      cases h
      obtain ⟨hp, hl⟩ := set_receiving_to_returned s.workers w hw
      exact
        { sent_pending := hsp
          perm := by simpa [hp] using hperm
          wg_eq := by
            show s.wg - 1 = _
            rw [hwg, ← hl]
            push_cast
            ring
          closed_iff := hci
          closed_pending := hcp
          drained := fun _ => ⟨hclosed, hchan⟩
          started := by simpa using hst
          finished_wg := by
            intro hf
            have h0 := hfin hf
            rw [hwg] at h0
            show s.wg - 1 = 0
            omega
          done_ids := by simpa using hid }
    · cases h

theorem Pool.inv_run {α : Type} {jobs : List α} {workerCount : Nat} (sched : List Action) :
    ∀ {s s1 : Pool α}, Pool.Inv jobs workerCount s → Pool.run workerCount s sched = some s1 →
      Pool.Inv jobs workerCount s1 := by
  induction sched with
  | nil =>
    intro s s1 hinv h
    simp only [Pool.run, Option.some.injEq] at h
    exact h ▸ hinv
  | cons a rest ih =>
    intro s s1 hinv h
    simp only [Pool.run] at h
    split at h
    · rename_i s2 hs
      exact ih (Pool.inv_step a hinv hs) h
    · cases h

/-- When `wg.Wait()` has returned, every worker has returned, the channel is closed and empty,
and the processed jobs are the submitted jobs. -/
theorem Pool.inv_finished {α : Type} {jobs : List α} {workerCount : Nat} {s : Pool α}
    (hwc : 1 ≤ workerCount) (hinv : Pool.Inv jobs workerCount s) (hf : s.main = .finished) :
    (s.done.map Prod.snd).Perm jobs ∧ liveCount s.workers = 0 ∧ s.chan = [] ∧
      s.pending = [] ∧ ∀ p ∈ s.done, 1 ≤ p.1 ∧ p.1 ≤ workerCount := by
  obtain ⟨hsp, hperm, hwg, hci, hcp, hdr, hst, hfin, hid⟩ := hinv
  have h0 := hfin hf
  rw [hwg] at h0
  have hl : liveCount s.workers = 0 := by omega
  rw [hf] at hst
  have hlen : s.workers.length = workerCount := hst
  obtain ⟨hc, hch⟩ := hdr (by omega)
  have hpe := hcp hc
  rw [hpe, List.append_nil] at hsp
  rw [workingJobs_of_liveCount_zero _ hl, hch, hsp] at hperm
  exact ⟨by simpa using hperm, hl, hch, hpe, fun p hp => hlen ▸ hid p hp⟩


/-! ## The worker pool: progress -/

theorem Pool.run_append {α : Type} (workerCount : Nat) (a b : List Action) :
    ∀ s : Pool α, Pool.run workerCount s (a ++ b) =
      (Pool.run workerCount s a).bind (fun s1 => Pool.run workerCount s1 b) := by
  induction a with
  | nil => intro s; rfl
  | cons x a ih =>
    intro s
    simp only [List.cons_append, Pool.run]
    cases Pool.step workerCount s x with
    | none => rfl
    | some s1 => exact ih s1

theorem Pool.run_start {α : Type} (jobs : List α) (workerCount : Nat) :
    ∀ i, i ≤ workerCount →
      Pool.run workerCount (Pool.init jobs) (List.replicate (2 * i) Action.main) =
        some { Pool.init jobs with wg := i, workers := List.replicate i .receiving,
                                   main := .adding (i + 1) } := by
  intro i
  induction i with
  | zero => intro _; rfl
  | succ i ih =>
    intro hi
    have h2 : 2 * (i + 1) = 2 * i + 2 := by ring
    rw [h2, List.replicate_add, Pool.run_append, ih (by omega)]
    have hle : i + 1 ≤ workerCount := hi
    simp [Pool.run, Pool.step, Pool.stepMain, Pool.init, hle, List.replicate_succ']

theorem Pool.run_send {α : Type} (workerCount : Nat) :
    ∀ (p : List α) (s : Pool α), s.main = .sending → s.pending = p →
      s.chan.length + p.length ≤ s.cap →
      Pool.run workerCount s (List.replicate p.length Action.main) =
        some { s with chan := s.chan ++ p, sent := s.sent ++ p, pending := [] } := by
  intro p
  induction p with
  | nil =>
    intro s _ hp _
    cases s
    simp only at hp
    subst hp
    simp [Pool.run]
  | cons job rest ih =>
    intro s hm hp hcap
    simp only [List.length_cons] at hcap
    have hlt : s.chan.length < s.cap := by omega
    simp only [List.length_cons, List.replicate_succ, Pool.run, Pool.step, Pool.stepMain, hm,
      hp, hlt, if_true]
    rw [ih _ rfl rfl (by simp; omega)]
    simp


theorem Pool.run_work {α : Type} (workerCount : Nat) :
    ∀ (c : List α) (s : Pool α) (ws : List (WorkerPC α)), s.workers = .receiving :: ws →
      s.chan = c →
      Pool.run workerCount s (c.flatMap (fun _ => [Action.receive 0, Action.finish 0])) =
        some { s with chan := [], done := s.done ++ c.map (fun job => (1, job)) } := by
  intro c
  induction c with
  | nil =>
    intro s ws _ hc
    cases s
    simp only at hc
    subst hc
    simp [Pool.run]
  | cons job rest ih =>
    intro s ws hw hc
    have h1 : Pool.run workerCount s [Action.receive 0, Action.finish 0] =
        some { s with chan := rest, done := s.done ++ [(1, job)] } := by
      cases s
      simp only at hw hc
      subst hw hc
      simp [Pool.run, Pool.step]
    rw [List.flatMap_cons, Pool.run_append, h1, Option.some_bind,
      ih { s with chan := rest, done := s.done ++ [(1, job)] } ws hw rfl]
    simp

theorem replicate_set_returned {α : Type} :
    ∀ (a b : Nat),
      ((List.replicate a (WorkerPC.returned : WorkerPC α) ++
          List.replicate (b + 1) (WorkerPC.receiving : WorkerPC α))[a]? =
        some WorkerPC.receiving) ∧
      (List.replicate a (WorkerPC.returned : WorkerPC α) ++
          List.replicate (b + 1) (WorkerPC.receiving : WorkerPC α)).set a WorkerPC.returned =
        List.replicate (a + 1) (WorkerPC.returned : WorkerPC α) ++
          List.replicate b (WorkerPC.receiving : WorkerPC α) := by
  intro a
  induction a with
  | zero => intro b; simp [List.replicate_succ]
  | succ a ih =>
    intro b
    obtain ⟨h1, h2⟩ := ih b
    constructor
    · simpa [List.replicate_succ] using h1
    · rw [List.replicate_succ, List.cons_append, List.set_cons_succ, h2]
      simp [List.replicate_succ]

theorem Pool.run_leave {α : Type} (workerCount : Nat) :
    ∀ (b a : Nat) (s : Pool α), s.closed = true → s.chan = [] →
      s.workers = List.replicate a .returned ++ List.replicate b .receiving →
      Pool.run workerCount s ((List.range' a b).map Action.leave) =
        some { s with workers := List.replicate (a + b) .returned, wg := s.wg - b } := by
  intro b
  induction b with
  | zero =>
    intro a s _ _ hw
    cases s
    simp only at hw
    subst hw
    simp [Pool.run]
  | succ b ih =>
    intro a s hcl hch hw
    obtain ⟨h1, h2⟩ := replicate_set_returned (α := α) a b
    have hstep : Pool.step workerCount s (Action.leave a) =
        some { s with workers := List.replicate (a + 1) .returned ++
                                   List.replicate b .receiving, wg := s.wg - 1 } := by
      simp only [Pool.step, hw, h1, hch, hcl, h2]
    simp only [List.range'_succ, List.map_cons, Pool.run, hstep]
    rw [ih (a + 1)
      { s with workers := List.replicate (a + 1) .returned ++ List.replicate b .receiving,
               wg := s.wg - 1 } hcl hch rfl]
    simp only [Option.some.injEq]
    have e1 : a + 1 + b = a + (b + 1) := by omega
    have e2 : s.wg - 1 - (b : Int) = s.wg - ((b + 1 : Nat) : Int) := by push_cast; ring
    rw [e1, e2]

/-- Progress: for every job list and at least one worker, the complete schedule is an
execution of the pool, at the end of which `wg.Wait()` has returned. -/
theorem Pool.run_completeSchedule {α : Type} (jobs : List α) (workerCount : Nat)
    (hwc : 1 ≤ workerCount) :
    Pool.run workerCount (Pool.init jobs) (completeSchedule jobs workerCount) =
      some { main := .finished, pending := [], chan := [], cap := jobs.length, closed := true,
             wg := 0, workers := List.replicate workerCount .returned, sent := jobs,
             done := jobs.map (fun job => (1, job)) } := by
  obtain ⟨n, rfl⟩ : ∃ n, workerCount = n + 1 := ⟨workerCount - 1, by omega⟩
  unfold completeSchedule
  simp only [Pool.run_append]
  rw [Pool.run_start jobs (n + 1) (n + 1) (le_refl _)]
  simp only [Option.some_bind]
  have h2 : ∀ s : Pool α, s.main = .adding (n + 1 + 1) →
      Pool.run (n + 1) s [Action.main] = some { s with main := .sending } := by
    intro s hs
    simp [Pool.run, Pool.step, Pool.stepMain, hs]
  rw [h2 _ rfl]
  simp only [Option.some_bind]
  rw [Pool.run_send (n + 1) jobs _ rfl rfl (by simp [Pool.init])]
  simp only [Option.some_bind]
  have h4 : ∀ s : Pool α, s.main = .sending → s.pending = [] →
      Pool.run (n + 1) s [Action.main] = some { s with closed := true, main := .waiting } := by
    intro s hs hp
    simp [Pool.run, Pool.step, Pool.stepMain, hs, hp]
  rw [h4 _ rfl rfl]
  simp only [Option.some_bind]
  rw [Pool.run_work (n + 1) jobs _ (List.replicate n .receiving)
    (by simp [List.replicate_succ]) (by simp [Pool.init])]
  simp only [Option.some_bind]
  rw [Pool.run_leave (n + 1) (n + 1) 0 _ rfl rfl (by simp)]
  simp only [Option.some_bind]
  simp [Pool.run, Pool.step, Pool.stepMain, Pool.init]

/-! ## The claims about the worker pool -/

/-- C9, as the code has it: main rejects no job. Along every schedule the jobs sent on the
channel followed by the jobs still to send are the whole job list, in order; once the channel
is closed every job of the list has been sent, whatever its MaxRetries; once wg.Wait() has
returned (with at least one worker) every job of the list has been processed by a worker; and
a worker handed a job with MaxRetries <= 0 returns without any fetch attempt and reports the
job failed. -/
theorem every_job_is_enqueued (jobs : List DownloadJob) (workerCount : Nat)
    (sched : List Action) (s : Pool DownloadJob)
    (hrun : Pool.run workerCount (Pool.init jobs) sched = some s) :
    s.sent ++ s.pending = jobs ∧ (s.closed = true → s.sent = jobs) ∧
      (1 ≤ workerCount → s.main = .finished → ∀ job ∈ jobs, ∃ w, (w, job) ∈ s.done) ∧
      ∀ (job : DownloadJob) (env : Int → AttemptEvents) (file : Option (List Nat)),
        job ∈ jobs → job.MaxRetries ≤ 0 →
          worker job env file = some (WorkerState.start file, .failed job.MaxRetries) := by
  have hinv := Pool.inv_run sched (Pool.inv_init jobs workerCount) hrun
  refine ⟨hinv.sent_pending, ?_, ?_, ?_⟩
  · intro hc
    have := hinv.sent_pending
    rw [hinv.closed_pending hc, List.append_nil] at this
    exact this
  · intro hwc hf job hjob
    obtain ⟨hperm, _⟩ := Pool.inv_finished hwc hinv hf
    have hmem : job ∈ s.done.map Prod.snd := hperm.mem_iff.mpr hjob
    obtain ⟨p, hp, hpj⟩ := List.mem_map.mp hmem
    exact ⟨p.1, by rw [← hpj]; exact hp⟩
  · intro job env file _ hle
    have h0 : job.MaxRetries.toNat = 0 := by omega
    unfold worker
    rw [h0, retryLoop_done job env 0 1 _ (by omega)]
    rfl

/-- C10: in the worker pool of versions 3 and 4, along every interleaving of main and the
workers, each submitted job is at every moment in exactly one place (processed by one worker,
being processed by one worker, in the channel, or not yet sent), so no job is received twice;
and when wg.Wait() has returned every worker has returned, the channel is empty, and the
processed jobs are the submitted jobs, each once, each by one of the workerCount workers. -/
theorem each_job_processed_exactly_once {α : Type} (jobs : List α) (workerCount : Nat)
    (sched : List Action) (s : Pool α) (hwc : 1 ≤ workerCount)
    (hrun : Pool.run workerCount (Pool.init jobs) sched = some s) :
    (s.done.map Prod.snd ++ workingJobs s.workers ++ s.chan ++ s.pending).Perm jobs ∧
      (s.main = .finished →
        (s.done.map Prod.snd).Perm jobs ∧ workingJobs s.workers = [] ∧ s.chan = [] ∧
          s.pending = [] ∧ ∀ p ∈ s.done, 1 ≤ p.1 ∧ p.1 ≤ workerCount) := by
  have hinv := Pool.inv_run sched (Pool.inv_init jobs workerCount) hrun
  constructor
  · have h := List.Perm.append_right s.pending hinv.perm
    rw [hinv.sent_pending] at h
    exact h
  · intro hf
    obtain ⟨h1, h2, h3, h4, h5⟩ := Pool.inv_finished hwc hinv hf
    exact ⟨h1, workingJobs_of_liveCount_zero _ h2, h3, h4, h5⟩


/-- The job list and worker count of main in version 4, along one complete schedule. -/
theorem sample_run :
    Pool.run workerCount (Pool.init mainJobs) sampleSchedule = some finishedPool := by
  decide

/-- C9 as stated fails: a job with MaxRetries = 0 given to main is sent on the channel and
received by the first worker. -/
theorem zero_attempt_job_is_handed_to_worker :
    zeroAttemptJob.MaxRetries ≤ 0 ∧
      (Pool.run workerCount (Pool.init [zeroAttemptJob]) handOverSchedule).map
          (fun s => (s.sent, s.workers)) =
        some ([zeroAttemptJob], [.working zeroAttemptJob, .receiving]) := by
  decide

/-- Witness of C9 as the code has it: a job list holding a job with MaxRetries = 0, along a
complete schedule. -/
theorem every_job_is_enqueued_witness :
    Pool.run workerCount (Pool.init [zeroAttemptJob]) zeroJobSchedule =
      some zeroJobFinishedPool ∧
    (zeroJobFinishedPool.sent ++ zeroJobFinishedPool.pending = [zeroAttemptJob] ∧
      (zeroJobFinishedPool.closed = true → zeroJobFinishedPool.sent = [zeroAttemptJob]) ∧
      (1 ≤ workerCount → zeroJobFinishedPool.main = .finished →
        ∀ job ∈ [zeroAttemptJob], ∃ w, (w, job) ∈ zeroJobFinishedPool.done) ∧
      ∀ (job : DownloadJob) (env : Int → AttemptEvents) (file : Option (List Nat)),
        job ∈ [zeroAttemptJob] → job.MaxRetries ≤ 0 →
          worker job env file = some (WorkerState.start file, .failed job.MaxRetries)) :=
  ⟨by decide,
    every_job_is_enqueued [zeroAttemptJob] workerCount zeroJobSchedule zeroJobFinishedPool
      (by decide)⟩

/-- Witness of C10: the job list and worker count of main, along a complete schedule. -/
theorem each_job_processed_exactly_once_witness :
    1 ≤ workerCount ∧
    Pool.run workerCount (Pool.init mainJobs) sampleSchedule = some finishedPool ∧
    ((finishedPool.done.map Prod.snd ++ workingJobs finishedPool.workers ++ finishedPool.chan ++
        finishedPool.pending).Perm mainJobs ∧
      (finishedPool.main = .finished →
        (finishedPool.done.map Prod.snd).Perm mainJobs ∧
          workingJobs finishedPool.workers = [] ∧ finishedPool.chan = [] ∧
          finishedPool.pending = [] ∧ ∀ p ∈ finishedPool.done, 1 ≤ p.1 ∧ p.1 ≤ workerCount)) :=
  ⟨by decide, by decide,
    each_job_processed_exactly_once mainJobs workerCount sampleSchedule finishedPool
      (by decide) (by decide)⟩

end Downloader
